import Mathlib

/-!
Shallow embedding of `src/fibonacci_mod.cpp` (Fibonacci mod-cycle enumerator).

The C++ core works on `int64` pairs; for a positive modulus `base` every
value that ever enters a pair lies in `[0, base)`, so states are embedded as
`Nat × Nat` and the C++ `%` coincides with `Nat.mod`.  The `unordered_set` /
`unordered_map` containers are embedded as lists with membership / first-index
lookup, which matches their observable behaviour (the program never relies on
hash order).  The dedup key built from `std::to_string` (`"a,b;c,d;..."`) is an
injective encoding of a cycle, so the `seen` set of strings is embedded as a
set of cycles compared by structural equality.
-/

namespace FibMod

/-- A traversal state: two consecutive terms of the recurrence (C++ `Pair`). -/
abbrev State := Nat × Nat

/-- C++ `comparePairs`: three-way lexicographic comparison of two pairs. -/
def comparePairs (a b : State) : Int :=
  if a.1 ≠ b.1 then (if a.1 < b.1 then -1 else 1)
  else if a.2 ≠ b.2 then (if a.2 < b.2 then -1 else 1)
  else 0

/-- The loop body of C++ `findMinCycleIndex`: scan indices `i, i+1, ...` of
`cycle` while `i < cycle.length`, keeping the index of the smallest element
seen so far.  The extra `fuel` argument only bounds the recursion; the loop
stops of its own accord once `i` reaches the length, so any `fuel` of at
least `cycle.length - i` makes it behave as the C++ `for` loop. -/
def findMinLoop (cycle : List State) : Nat → Nat → Nat → Nat
  | minIdx, _, 0 => minIdx
  | minIdx, i, fuel + 1 =>
    if i < cycle.length then
      findMinLoop cycle
        (if comparePairs (cycle.getD i (0, 0)) (cycle.getD minIdx (0, 0)) < 0 then i else minIdx)
        (i + 1) fuel
    else minIdx

/-- C++ `findMinCycleIndex`: index of the lexicographically smallest element
(first occurrence), starting from `minIdx = 0` and scanning from `i = 1`. -/
def findMinCycleIndex (cycle : List State) : Nat :=
  findMinLoop cycle 0 1 cycle.length

/-- C++ `canonicalCycle`: rotate the cycle so that it starts at the
lexicographically smallest element. -/
def canonicalCycle (cycle : List State) : List State :=
  if cycle.isEmpty then []
  else
    (List.range cycle.length).map
      (fun i => cycle.getD ((findMinCycleIndex cycle + i) % cycle.length) (0, 0))

/-- The transition of `computeModCycles` (lines 110-112):
`(a, b) ↦ (b, (a + b) % base)`. -/
def step (m : Nat) (s : State) : State :=
  (s.2, (s.1 + s.2) % m)

/-- Lookup of a state in the current path, returning its position: embeds the
C++ `seenIndex` map, which holds exactly the states of `path` keyed by their
index of first insertion. -/
def pathIndex (s : State) : List State → Option Nat
  | [] => none
  | t :: rest => if t = s then some 0 else (pathIndex s rest).map (· + 1)

/-- The per-start `while (iterations < maxIterations)` loop of
`computeModCycles` (lines 88-114).  `fuel` is the number of remaining
iterations; the result is the final `path` together with the detected cycle
(`path` sliced from the first repeat index), or `none` if the cap is hit. -/
def stepLoop (m : Nat) : Nat → List State → State → List State × Option (List State)
  | 0, path, _ => (path, none)
  | fuel + 1, path, current =>
    match pathIndex current path with
    | some start => (path, some (path.drop start))
    | none => stepLoop m fuel (path ++ [current]) (step m current)

/-- The row-major list of starting pairs scanned by the two nested loops
(lines 73-74): `a0` outer, `b0` inner. -/
def keys (m : Nat) : List State :=
  (List.range m).flatMap (fun a0 => (List.range m).map (fun b0 => (a0, b0)))

/-- The mutable state of the scan: the global `visited` set and the list of
canonicalized raw cycles, in discovery order. -/
structure EnumState where
  visited : List State
  rawCycles : List (List State)

/-- One iteration of the scan over starting pairs (lines 75-119): skip visited
starts; otherwise run the traversal loop, record the canonicalized cycle if
one was found and is non-empty, and mark the whole path visited. -/
def processStart (m : Nat) (st : EnumState) (key : State) : EnumState :=
  if key ∈ st.visited then st
  else
    let pr := stepLoop m (m * m * 2 + 1000) [] key
    let raw :=
      match pr.2 with
      | some cyc => if cyc.isEmpty then st.rawCycles else st.rawCycles ++ [canonicalCycle cyc]
      | none => st.rawCycles
    ⟨st.visited ++ pr.1, raw⟩

/-- The full scan of `computeModCycles` before deduplication (lines 60-127). -/
def scanRaw (m : Nat) : EnumState :=
  (keys m).foldl (processStart m) ⟨[], []⟩

/-- State of the dedup loop (lines 133-159): the `seen` keys (cycles, via the
injective string encoding), and the two parallel output vectors. -/
structure DedupState where
  seen : List (List State)
  sequences : List (List Nat)
  cyclesPairs : List (List State)

/-- One iteration of the dedup loop: retain a first-seen cycle, appending it
to `cyclesPairs` and its first-component projection to `sequences`. -/
def dedupStep (st : DedupState) (cycle : List State) : DedupState :=
  if cycle ∈ st.seen then st
  else ⟨st.seen ++ [cycle], st.sequences ++ [cycle.map Prod.fst], st.cyclesPairs ++ [cycle]⟩

/-- C++ `computeModCycles` for a positive modulus, producing
`(sequences, cyclesPairs)`. -/
def computeModCyclesNat (m : Nat) : List (List Nat) × List (List State) :=
  let final := (scanRaw m).rawCycles.foldl dedupStep ⟨[], [], []⟩
  (final.sequences, final.cyclesPairs)

/-- C++ `computeModCycles` with its signed argument: for `base ≤ 0` it returns
immediately (line 58), leaving both output vectors empty. -/
def computeModCycles (base : Int) : List (List Nat) × List (List State) :=
  if base ≤ 0 then ([], [])
  else computeModCyclesNat base.toNat

/-- The argument validation of `main` (lines 211-214): a non-positive modulus
is rejected with an error before `computeModCycles` is ever invoked. -/
def mainCheck (base : Int) : Except String (List (List Nat) × List (List State)) :=
  if base ≤ 0 then Except.error "error: modulus must be a positive integer"
  else Except.ok (computeModCycles base)

/-- A state of the `[0, m)²` domain. -/
def inDomain (m : Nat) (s : State) : Prop :=
  s.1 < m ∧ s.2 < m

instance (m : Nat) (s : State) : Decidable (inDomain m s) :=
  inferInstanceAs (Decidable (_ ∧ _))

/-- Search for the least `d` with `k ≤ d < k + fuel` and `step^[d] s = s`. -/
def leastPeriodFrom (m : Nat) (s : State) : Nat → Nat → Nat
  | _, 0 => 0
  | k, fuel + 1 => if (step m)^[k] s = s then k else leastPeriodFrom m s (k + 1) fuel

/-- The least positive period of `s` under `step m` (searched up to `m²`,
which suffices for domain states by the pigeonhole principle). -/
def leastPeriod (m : Nat) (s : State) : Nat :=
  leastPeriodFrom m s 1 (m * m)

/-- The orbit of `s` under `step m`, as the list of its first `leastPeriod`
iterates: exactly the path the traversal loop builds from the start `s`. -/
def orbitList (m : Nat) (s : State) : List State :=
  (List.range (leastPeriod m s)).map (fun i => (step m)^[i] s)

/-- Modelled from the spec (section 4.6 postcondition and 4.5): the starting
pairs, in row-major scan order, from which a new cycle is first discovered —
those that do not lie in the orbit of any earlier starting pair. -/
def contributors (m : Nat) : List State → List State → List State
  | [], _ => []
  | k :: ks, prev =>
    if prev.any (fun p => decide (k ∈ orbitList m p)) then contributors m ks (prev ++ [k])
    else k :: contributors m ks (prev ++ [k])

/-- Modelled from the spec (sections 4.5, 4.6): the canonical cycles in the
order in which they are first discovered under the row-major scan of starting
pairs, retaining only the first-seen representative of each cycle. -/
def specCycles (m : Nat) : List (List State) :=
  (contributors m (keys m) []).map (fun k => canonicalCycle (orbitList m k))

/-- Replay of the scan recording the traversal `path` of every starting point
that actually begins a traversal (the per-start `path` vector of lines
78-118, one entry per start that passes the `visited` filter). -/
def tracePaths (m : Nat) : List State → List State → List (List State)
  | [], _ => []
  | k :: ks, visited =>
    if k ∈ visited then tracePaths m ks visited
    else
      (stepLoop m (m * m * 2 + 1000) [] k).1 ::
        tracePaths m ks (visited ++ (stepLoop m (m * m * 2 + 1000) [] k).1)

/-! ### Order lemmas for `comparePairs` -/

lemma comparePairs_lt_iff {a b : State} :
    comparePairs a b < 0 ↔ a.1 < b.1 ∨ (a.1 = b.1 ∧ a.2 < b.2) := by
  obtain ⟨a1, a2⟩ := a
  obtain ⟨b1, b2⟩ := b
  simp only [comparePairs]
  split_ifs <;> simp_all <;> omega

lemma comparePairs_irrefl (a : State) : ¬ comparePairs a a < 0 := by
  rw [comparePairs_lt_iff]; omega

lemma comparePairs_trans {a b c : State}
    (h1 : comparePairs a b < 0) (h2 : comparePairs b c < 0) : comparePairs a c < 0 := by
  rw [comparePairs_lt_iff] at h1 h2 ⊢; omega

lemma comparePairs_antisymm {a b : State}
    (h1 : ¬ comparePairs a b < 0) (h2 : ¬ comparePairs b a < 0) : a = b := by
  rw [comparePairs_lt_iff] at h1 h2
  obtain ⟨a1, a2⟩ := a
  obtain ⟨b1, b2⟩ := b
  simp only [Prod.mk.injEq]
  simp only [not_or, not_and, not_lt] at h1 h2
  omega

/-! ### `findMinCycleIndex` returns the first index of the minimum -/

lemma findMinLoop_spec (l : List State) :
    ∀ fuel i minIdx, l.length - i ≤ fuel → minIdx < l.length →
      (∀ j, j < i → j < l.length →
        ¬ comparePairs (l.getD j (0, 0)) (l.getD minIdx (0, 0)) < 0) →
      findMinLoop l minIdx i fuel < l.length ∧
        ∀ j, j < l.length →
          ¬ comparePairs (l.getD j (0, 0)) (l.getD (findMinLoop l minIdx i fuel) (0, 0)) < 0 := by
  intro fuel
  induction fuel with
  | zero =>
    intro i minIdx hfuel hmin hinv
    refine ⟨hmin, fun j hj => hinv j (by omega) hj⟩
  | succ fuel ih =>
    intro i minIdx hfuel hmin hinv
    by_cases hi : i < l.length
    · rw [findMinLoop, if_pos hi]
      by_cases hcmp : comparePairs (l.getD i (0, 0)) (l.getD minIdx (0, 0)) < 0
      · rw [if_pos hcmp]
        refine ih (i + 1) i (by omega) hi ?_
        intro j hj hjl
        rcases Nat.lt_succ_iff_lt_or_eq.mp hj with hj' | rfl
        · intro habs
          exact hinv j hj' hjl (comparePairs_trans habs hcmp)
        · exact comparePairs_irrefl _
      · rw [if_neg hcmp]
        refine ih (i + 1) minIdx (by omega) hmin ?_
        intro j hj hjl
        rcases Nat.lt_succ_iff_lt_or_eq.mp hj with hj' | rfl
        · exact hinv j hj' hjl
        · exact hcmp
    · rw [findMinLoop, if_neg hi]
      exact ⟨hmin, fun j hj => hinv j (by omega) hj⟩

lemma findMinLoop_id (l : List State) :
    ∀ fuel i minIdx,
      (∀ j, j < l.length →
        ¬ comparePairs (l.getD j (0, 0)) (l.getD minIdx (0, 0)) < 0) →
      findMinLoop l minIdx i fuel = minIdx := by
  intro fuel
  induction fuel with
  | zero => intro i minIdx _; rfl
  | succ fuel ih =>
    intro i minIdx hinv
    by_cases hi : i < l.length
    · rw [findMinLoop, if_pos hi, if_neg (hinv i hi)]
      exact ih (i + 1) minIdx hinv
    · rw [findMinLoop, if_neg hi]

lemma findMinCycleIndex_lt {l : List State} (h : l ≠ []) :
    findMinCycleIndex l < l.length := by
  have h0 : 0 < l.length := List.length_pos.mpr h
  exact (findMinLoop_spec l l.length 1 0 (by omega) h0
    (fun j hj hjl => by
      interval_cases j
      exact comparePairs_irrefl _)).1

lemma findMinCycleIndex_min {l : List State} (h : l ≠ []) :
    ∀ j, j < l.length →
      ¬ comparePairs (l.getD j (0, 0)) (l.getD (findMinCycleIndex l) (0, 0)) < 0 := by
  have h0 : 0 < l.length := List.length_pos.mpr h
  exact (findMinLoop_spec l l.length 1 0 (by omega) h0
    (fun j hj hjl => by
      interval_cases j
      exact comparePairs_irrefl _)).2

/-! ### `canonicalCycle` as a rotation -/

lemma getD_eq (l : List State) {n : Nat} (h : n < l.length) : l.getD n (0, 0) = l[n] := by
  rw [List.getD_eq_get l (0, 0) h, List.get_eq_getElem]

lemma canonicalCycle_eq_rotate {l : List State} (h : l ≠ []) :
    canonicalCycle l = l.rotate (findMinCycleIndex l) := by
  have hne : l.isEmpty = false := List.isEmpty_eq_false.mpr h
  have h0 : 0 < l.length := List.length_pos.mpr h
  apply List.ext_get
  · simp [canonicalCycle, hne, List.length_rotate]
  · intro n h1 h2
    simp only [canonicalCycle, hne, Bool.false_eq_true, if_false, List.get_eq_getElem,
      List.getElem_map, List.getElem_range]
    have hg := List.get_rotate l (findMinCycleIndex l) ⟨n, h2⟩
    simp only [List.get_eq_getElem] at hg
    rw [hg]
    rw [getD_eq l (Nat.mod_lt _ h0)]
    have hcomm : (findMinCycleIndex l + n) % l.length = (n + findMinCycleIndex l) % l.length := by
      rw [Nat.add_comm]
    simp only [hcomm]

lemma canonicalCycle_length (l : List State) : (canonicalCycle l).length = l.length := by
  by_cases h : l = []
  · subst h; rfl
  · rw [canonicalCycle_eq_rotate h, List.length_rotate]

lemma canonicalCycle_ne_nil {l : List State} (h : l ≠ []) : canonicalCycle l ≠ [] := by
  intro habs
  have := canonicalCycle_length l
  rw [habs] at this
  exact h (List.length_eq_zero.mp this.symm)

lemma mem_canonicalCycle {x : State} {l : List State} : x ∈ canonicalCycle l ↔ x ∈ l := by
  by_cases h : l = []
  · subst h; simp [canonicalCycle]
  · rw [canonicalCycle_eq_rotate h, List.mem_rotate]

lemma canonicalCycle_nodup {l : List State} (h : l.Nodup) : (canonicalCycle l).Nodup := by
  by_cases hl : l = []
  · subst hl; exact List.nodup_nil
  · rw [canonicalCycle_eq_rotate hl]
    exact ((List.rotate_perm l _).symm.nodup h)

lemma rotate_getD_zero {l : List State} (h : l ≠ []) (j : Nat) :
    (l.rotate j).getD 0 (0, 0) = l.getD (j % l.length) (0, 0) := by
  have h0 : 0 < l.length := List.length_pos.mpr h
  have hr0 : 0 < (l.rotate j).length := by rw [List.length_rotate]; exact h0
  rw [getD_eq _ hr0, getD_eq _ (Nat.mod_lt _ h0)]
  have hg := List.get_rotate l j ⟨0, hr0⟩
  simp only [List.get_eq_getElem] at hg
  simpa using hg

lemma canonicalCycle_getD_zero {l : List State} (h : l ≠ []) :
    (canonicalCycle l).getD 0 (0, 0) = l.getD (findMinCycleIndex l) (0, 0) := by
  rw [canonicalCycle_eq_rotate h, rotate_getD_zero h,
    Nat.mod_eq_of_lt (findMinCycleIndex_lt h)]

lemma canonicalCycle_head_min {l : List State} (h : l ≠ []) :
    ∀ x ∈ l, ¬ comparePairs x ((canonicalCycle l).getD 0 (0, 0)) < 0 := by
  intro x hx
  rw [canonicalCycle_getD_zero h]
  obtain ⟨j, hj, rfl⟩ := List.mem_iff_getElem.mp hx
  rw [← getD_eq l hj]
  exact findMinCycleIndex_min h j hj

/-! ### Claims C4 and C9: canonicalization -/

/-- C4 (as stated, refuted): canonicalization is *not* invariant under
rotation for every non-empty list of pairs.  The cycle
`[(0,0),(1,1),(0,0),(2,2)]` holds its minimal pair `(0,0)` at two positions;
rotating by 2 swaps which occurrence comes first and the canonical forms
differ. -/
theorem claim4_rotation_counterexample :
    canonicalCycle (([((0 : Nat), (0 : Nat)), (1, 1), (0, 0), (2, 2)] : List State).rotate 2) ≠
      canonicalCycle [((0 : Nat), (0 : Nat)), (1, 1), (0, 0), (2, 2)] := by
  decide

/-- C4 (amended): for every non-empty cycle whose elements are pairwise
distinct, applying `canonicalCycle` to any rotation of the list yields the
same result, so rotations of structurally identical duplicate-free cyclic
sequences canonicalize to identical lists. -/
theorem claim4_rotation_invariant (l : List State) (k : Nat)
    (hne : l ≠ []) (hnd : l.Nodup) :
    canonicalCycle (l.rotate k) = canonicalCycle l := by
  have h0 : 0 < l.length := List.length_pos.mpr hne
  have hrne : l.rotate k ≠ [] := by
    intro habs
    have hlen := List.length_rotate l k
    rw [habs] at hlen
    simp only [List.length_nil] at hlen
    omega
  set M1 := findMinCycleIndex (l.rotate k) with hM1
  set M2 := findMinCycleIndex l with hM2
  have e1 : canonicalCycle (l.rotate k) = l.rotate (k + M1) := by
    rw [canonicalCycle_eq_rotate hrne, List.rotate_rotate]
  have e2 : canonicalCycle l = l.rotate M2 := canonicalCycle_eq_rotate hne
  have hh1 : (canonicalCycle (l.rotate k)).getD 0 (0, 0) =
      l.getD ((k + M1) % l.length) (0, 0) := by
    rw [e1, rotate_getD_zero hne]
  have hh2 : (canonicalCycle l).getD 0 (0, 0) = l.getD (M2 % l.length) (0, 0) := by
    rw [e2, rotate_getD_zero hne]
  have hmem1 : l.getD ((k + M1) % l.length) (0, 0) ∈ l := by
    rw [getD_eq l (Nat.mod_lt _ h0)]
    exact List.getElem_mem _
  have hmem2 : l.getD (M2 % l.length) (0, 0) ∈ l := by
    rw [getD_eq l (Nat.mod_lt _ h0)]
    exact List.getElem_mem _
  have hmin1 : ∀ x ∈ l, ¬ comparePairs x (l.getD ((k + M1) % l.length) (0, 0)) < 0 := by
    intro x hx
    rw [← hh1]
    exact canonicalCycle_head_min hrne x (List.mem_rotate.mpr hx)
  have hmin2 : ∀ x ∈ l, ¬ comparePairs x (l.getD (M2 % l.length) (0, 0)) < 0 := by
    intro x hx
    rw [← hh2]
    exact canonicalCycle_head_min hne x hx
  have heads : l.getD ((k + M1) % l.length) (0, 0) = l.getD (M2 % l.length) (0, 0) :=
    comparePairs_antisymm (hmin2 _ hmem1) (hmin1 _ hmem2)
  have hidx : (k + M1) % l.length = M2 % l.length := by
    have hget : l.get ⟨(k + M1) % l.length, Nat.mod_lt _ h0⟩ =
        l.get ⟨M2 % l.length, Nat.mod_lt _ h0⟩ := by
      rw [getD_eq l (Nat.mod_lt _ h0), getD_eq l (Nat.mod_lt _ h0)] at heads
      simpa [List.get_eq_getElem] using heads
    have := List.nodup_iff_injective_get.mp hnd hget
    exact congrArg Fin.val this
  calc canonicalCycle (l.rotate k) = l.rotate (k + M1) := e1
    _ = l.rotate ((k + M1) % l.length) := (List.rotate_mod l (k + M1)).symm
    _ = l.rotate (M2 % l.length) := by rw [hidx]
    _ = l.rotate M2 := List.rotate_mod l M2
    _ = canonicalCycle l := e2.symm

/-- Witness for the amended C4 at the concrete cycle `[(0,0),(1,1)]`
rotated by 1. -/
theorem claim4_rotation_invariant_witness :
    (([((0 : Nat), (0 : Nat)), (1, 1)] : List State) ≠ [] ∧
        ([((0 : Nat), (0 : Nat)), (1, 1)] : List State).Nodup) ∧
      canonicalCycle (([((0 : Nat), (0 : Nat)), (1, 1)] : List State).rotate 1) =
        canonicalCycle [((0 : Nat), (0 : Nat)), (1, 1)] :=
  ⟨⟨by decide, by decide⟩, claim4_rotation_invariant _ 1 (by decide) (by decide)⟩

/-- C9: canonicalization is idempotent — canonicalizing an already-canonical
non-empty cycle returns it unchanged. -/
theorem claim9_canonical_idempotent (c : List State) (h : c ≠ []) :
    canonicalCycle (canonicalCycle c) = canonicalCycle c := by
  have hc' : canonicalCycle c ≠ [] := canonicalCycle_ne_nil h
  have hmin0 : findMinCycleIndex (canonicalCycle c) = 0 := by
    apply findMinLoop_id
    intro j hj
    have hmem : (canonicalCycle c).getD j (0, 0) ∈ c := by
      rw [getD_eq _ hj]
      exact mem_canonicalCycle.mp (List.getElem_mem hj)
    exact canonicalCycle_head_min h _ hmem
  rw [canonicalCycle_eq_rotate hc', hmin0, List.rotate_zero]

/-- Witness for C9 at the concrete cycle `[(1,2),(0,1)]`. -/
theorem claim9_canonical_idempotent_witness :
    ([((1 : Nat), (2 : Nat)), (0, 1)] : List State) ≠ [] ∧
      canonicalCycle (canonicalCycle [((1 : Nat), (2 : Nat)), (0, 1)]) =
        canonicalCycle [((1 : Nat), (2 : Nat)), (0, 1)] :=
  ⟨by decide, claim9_canonical_idempotent _ (by decide)⟩

/-! ### The transition is a bijection of the finite domain: orbit theory -/

lemma step_inDomain {m : Nat} (hm : 0 < m) {s : State} (hs : inDomain m s) :
    inDomain m (step m s) :=
  ⟨hs.2, Nat.mod_lt _ hm⟩

lemma iterate_inDomain {m : Nat} (hm : 0 < m) {s : State} (hs : inDomain m s) :
    ∀ n, inDomain m ((step m)^[n] s) := by
  intro n
  induction n with
  | zero => simpa using hs
  | succ n ih =>
    rw [Function.iterate_succ_apply']
    exact step_inDomain hm ih

lemma step_injOn {m : Nat} {a b : State} (ha : inDomain m a) (hb : inDomain m b)
    (h : step m a = step m b) : a = b := by
  obtain ⟨a1, a2⟩ := a
  obtain ⟨b1, b2⟩ := b
  simp only [step, Prod.mk.injEq] at h
  obtain ⟨h2, hsum⟩ := h
  subst h2
  simp only [Prod.mk.injEq, and_true]
  have hmodeq : a1 % m = b1 % m := Nat.ModEq.add_right_cancel' a2 hsum
  rw [Nat.mod_eq_of_lt ha.1, Nat.mod_eq_of_lt hb.1] at hmodeq
  exact hmodeq

lemma iterate_cancel {m : Nat} (hm : 0 < m) {s : State} (hs : inDomain m s) :
    ∀ i k, i ≤ k → (step m)^[i] s = (step m)^[k] s → s = (step m)^[k - i] s := by
  intro i
  induction i with
  | zero => intro k _ h; simpa using h
  | succ i ih =>
    intro k hik h
    obtain ⟨k', rfl⟩ : ∃ k', k = k' + 1 := ⟨k - 1, by omega⟩
    rw [Function.iterate_succ_apply', Function.iterate_succ_apply'] at h
    have hstep := step_injOn (iterate_inDomain hm hs i) (iterate_inDomain hm hs k') h
    have hres := ih k' (by omega) hstep
    simpa [Nat.succ_sub_succ] using hres

lemma exists_period {m : Nat} (hm : 0 < m) {s : State} (hs : inDomain m s) :
    ∃ d, 0 < d ∧ d ≤ m * m ∧ (step m)^[d] s = s := by
  have hc : (Finset.range m ×ˢ Finset.range m).card < (Finset.range (m * m + 1)).card := by
    simp [Finset.card_range]
  have hf : ∀ a ∈ Finset.range (m * m + 1),
      (fun i => (step m)^[i] s) a ∈ Finset.range m ×ˢ Finset.range m := by
    intro a _
    have hd := iterate_inDomain hm hs a
    simp only [Finset.mem_product, Finset.mem_range]
    exact ⟨hd.1, hd.2⟩
  obtain ⟨i, hi, j, hj, hne, heq⟩ := Finset.exists_ne_map_eq_of_card_lt_of_maps_to hc hf
  simp only [Finset.mem_range] at hi hj
  rcases lt_trichotomy i j with hij | hij | hij
  · exact ⟨j - i, by omega, by omega, (iterate_cancel hm hs i j (by omega) heq).symm⟩
  · exact absurd hij hne
  · exact ⟨i - j, by omega, by omega, (iterate_cancel hm hs j i (by omega) heq.symm).symm⟩

lemma leastPeriodFrom_spec (m : Nat) (s : State) :
    ∀ fuel k, (∃ d, k ≤ d ∧ d < k + fuel ∧ (step m)^[d] s = s) →
      k ≤ leastPeriodFrom m s k fuel ∧ (step m)^[leastPeriodFrom m s k fuel] s = s ∧
        ∀ j, k ≤ j → j < leastPeriodFrom m s k fuel → (step m)^[j] s ≠ s := by
  intro fuel
  induction fuel with
  | zero =>
    rintro k ⟨d, hd1, hd2, -⟩
    omega
  | succ fuel ih =>
    intro k hex
    by_cases hk : (step m)^[k] s = s
    · simp only [leastPeriodFrom, if_pos hk]
      exact ⟨Nat.le_refl k, hk, fun j hj1 hj2 => absurd (hj1.trans_lt hj2) (lt_irrefl k)⟩
    · simp only [leastPeriodFrom, if_neg hk]
      obtain ⟨d, hd1, hd2, hd3⟩ := hex
      have hdk : d ≠ k := fun h => hk (h ▸ hd3)
      obtain ⟨h1, h2, h3⟩ := ih (k + 1) ⟨d, by omega, by omega, hd3⟩
      refine ⟨by omega, h2, fun j hj1 hj2 => ?_⟩
      by_cases hjk : j = k
      · exact hjk ▸ hk
      · exact h3 j (by omega) hj2

lemma leastPeriod_spec {m : Nat} (hm : 0 < m) {s : State} (hs : inDomain m s) :
    0 < leastPeriod m s ∧ leastPeriod m s ≤ m * m ∧
      (step m)^[leastPeriod m s] s = s ∧
      ∀ j, 0 < j → j < leastPeriod m s → (step m)^[j] s ≠ s := by
  obtain ⟨d, hd0, hdm, hds⟩ := exists_period hm hs
  obtain ⟨h1, h2, h3⟩ := leastPeriodFrom_spec m s (m * m) 1 ⟨d, by omega, by omega, hds⟩
  rw [show leastPeriod m s = leastPeriodFrom m s 1 (m * m) from rfl]
  refine ⟨h1, ?_, h2, fun j hj0 hjl => h3 j (by omega) hjl⟩
  by_contra hgt
  push_neg at hgt
  exact h3 d (by omega) (by omega) hds

lemma iterate_leastPeriod_mul {m : Nat} (hm : 0 < m) {s : State} (hs : inDomain m s) :
    ∀ q, (step m)^[leastPeriod m s * q] s = s := by
  intro q
  induction q with
  | zero => simp
  | succ q ih =>
    rw [Nat.mul_succ, Function.iterate_add_apply, (leastPeriod_spec hm hs).2.2.1, ih]

lemma iterate_mod_leastPeriod {m : Nat} (hm : 0 < m) {s : State} (hs : inDomain m s)
    (n : Nat) : (step m)^[n] s = (step m)^[n % leastPeriod m s] s := by
  conv_lhs => rw [← Nat.mod_add_div n (leastPeriod m s)]
  rw [Function.iterate_add_apply, iterate_leastPeriod_mul hm hs]

lemma orbitList_length (m : Nat) (s : State) :
    (orbitList m s).length = leastPeriod m s := by
  simp [orbitList]

lemma orbitList_ne_nil {m : Nat} (hm : 0 < m) {s : State} (hs : inDomain m s) :
    orbitList m s ≠ [] := by
  intro habs
  have := orbitList_length m s
  rw [habs] at this
  have := (leastPeriod_spec hm hs).1
  simp only [List.length_nil] at *
  omega

lemma mem_orbitList_iff {m : Nat} (hm : 0 < m) {s : State} (hs : inDomain m s) {x : State} :
    x ∈ orbitList m s ↔ ∃ n, (step m)^[n] s = x := by
  simp only [orbitList, List.mem_map, List.mem_range]
  constructor
  · rintro ⟨i, hi, rfl⟩
    exact ⟨i, rfl⟩
  · rintro ⟨n, rfl⟩
    exact ⟨n % leastPeriod m s, Nat.mod_lt _ (leastPeriod_spec hm hs).1,
      (iterate_mod_leastPeriod hm hs n).symm⟩

lemma orbitList_subset {m : Nat} (hm : 0 < m) {s : State} (hs : inDomain m s) :
    ∀ x ∈ orbitList m s, inDomain m x := by
  intro x hx
  obtain ⟨n, rfl⟩ := (mem_orbitList_iff hm hs).mp hx
  exact iterate_inDomain hm hs n

lemma self_mem_orbitList {m : Nat} (hm : 0 < m) {s : State} (hs : inDomain m s) :
    s ∈ orbitList m s :=
  (mem_orbitList_iff hm hs).mpr ⟨0, rfl⟩

lemma orbit_trans {m : Nat} (hm : 0 < m) {x y z : State} (hz : inDomain m z)
    (hxy : x ∈ orbitList m y) (hyz : y ∈ orbitList m z) : x ∈ orbitList m z := by
  have hy : inDomain m y := orbitList_subset hm hz y hyz
  obtain ⟨a, rfl⟩ := (mem_orbitList_iff hm hy).mp hxy
  obtain ⟨b, rfl⟩ := (mem_orbitList_iff hm hz).mp hyz
  exact (mem_orbitList_iff hm hz).mpr ⟨a + b, Function.iterate_add_apply _ a b z⟩

lemma orbit_symm {m : Nat} (hm : 0 < m) {x y : State} (hy : inDomain m y)
    (hxy : x ∈ orbitList m y) : y ∈ orbitList m x := by
  have hx : inDomain m x := orbitList_subset hm hy x hxy
  obtain ⟨a, rfl⟩ := (mem_orbitList_iff hm hy).mp hxy
  have hL0 : 0 < leastPeriod m y := (leastPeriod_spec hm hy).1
  refine (mem_orbitList_iff hm hx).mpr ⟨leastPeriod m y - a % leastPeriod m y, ?_⟩
  rw [← Function.iterate_add_apply]
  rw [iterate_mod_leastPeriod hm hy]
  have hzero : (leastPeriod m y - a % leastPeriod m y + a) % leastPeriod m y = 0 := by
    set L := leastPeriod m y
    have h1 : a % L < L := Nat.mod_lt _ hL0
    have hd : a % L + L * (a / L) = a := Nat.mod_add_div a L
    calc (L - a % L + a) % L = (L + L * (a / L)) % L := by congr 1; omega
      _ = 0 := by rw [Nat.add_mul_mod_self_left, Nat.mod_self]
  rw [hzero]
  simp

lemma orbitList_nodup {m : Nat} (hm : 0 < m) {s : State} (hs : inDomain m s) :
    (orbitList m s).Nodup := by
  refine List.Nodup.map_on ?_ (List.nodup_range _)
  intro i hi j hj hij
  simp only [List.mem_range] at hi hj
  by_contra hne
  rcases lt_trichotomy i j with h | h | h
  · have := iterate_cancel hm hs i j (by omega) hij
    exact (leastPeriod_spec hm hs).2.2.2 (j - i) (by omega) (by omega) this.symm
  · exact hne h
  · have := iterate_cancel hm hs j i (by omega) hij.symm
    exact (leastPeriod_spec hm hs).2.2.2 (i - j) (by omega) (by omega) this.symm

/-! ### The traversal loop walks exactly the orbit of its start -/

lemma pathIndex_eq_none {s : State} : ∀ {l : List State}, pathIndex s l = none ↔ s ∉ l := by
  intro l
  induction l with
  | nil => simp [pathIndex]
  | cons t rest ih =>
    by_cases h : t = s
    · subst h
      simp [pathIndex]
    · simp only [pathIndex, if_neg h, Option.map_eq_none', ih, List.mem_cons]
      constructor
      · intro hr hc
        rcases hc with hst | hr'
        · exact h hst.symm
        · exact hr hr'
      · exact fun hc hr => hc (Or.inr hr)

lemma pathIndex_cons_self (s : State) (rest : List State) :
    pathIndex s (s :: rest) = some 0 := by
  simp [pathIndex]

lemma stepLoop_go {m : Nat} (hm : 0 < m) {s : State} (hs : inDomain m s) :
    ∀ fuel k, k ≤ leastPeriod m s → leastPeriod m s + 1 - k ≤ fuel →
      stepLoop m fuel ((List.range k).map (fun i => (step m)^[i] s)) ((step m)^[k] s) =
        (orbitList m s, some (orbitList m s)) := by
  obtain ⟨hL0, hLm, hLper, hLmin⟩ := leastPeriod_spec hm hs
  intro fuel
  induction fuel with
  | zero =>
    intro k hk hf
    omega
  | succ fuel ih =>
    intro k hk hf
    rcases Nat.eq_or_lt_of_le hk with heq | hklt
    · subst heq
      obtain ⟨L', hL'⟩ : ∃ L', leastPeriod m s = L' + 1 := ⟨leastPeriod m s - 1, by omega⟩
      have hhead : (List.range (leastPeriod m s)).map (fun i => (step m)^[i] s) =
          s :: (List.range L').map (fun i => (step m)^[Nat.succ i] s) := by
        rw [hL', List.range_succ_eq_map, List.map_cons, List.map_map]
        rfl
      rw [hLper, show stepLoop m (fuel + 1)
          ((List.range (leastPeriod m s)).map fun i => (step m)^[i] s) s =
          match pathIndex s ((List.range (leastPeriod m s)).map fun i => (step m)^[i] s) with
          | some start =>
            (((List.range (leastPeriod m s)).map fun i => (step m)^[i] s),
              some (((List.range (leastPeriod m s)).map fun i => (step m)^[i] s).drop start))
          | none =>
            stepLoop m fuel (((List.range (leastPeriod m s)).map fun i => (step m)^[i] s) ++ [s])
              (step m s) from rfl]
      rw [hhead, pathIndex_cons_self]
      simp only [List.drop_zero]
      rw [← hhead]
      rfl
    · have hnotmem : (step m)^[k] s ∉ (List.range k).map (fun i => (step m)^[i] s) := by
        intro hmem
        simp only [List.mem_map, List.mem_range] at hmem
        obtain ⟨i, hik, hieq⟩ := hmem
        have hcan := iterate_cancel hm hs i k (by omega) hieq
        exact hLmin (k - i) (by omega) (by omega) hcan.symm
      have hre : stepLoop m (fuel + 1) ((List.range k).map fun i => (step m)^[i] s)
          ((step m)^[k] s) =
          stepLoop m fuel (((List.range k).map fun i => (step m)^[i] s) ++ [(step m)^[k] s])
            (step m ((step m)^[k] s)) := by
        rw [show stepLoop m (fuel + 1) ((List.range k).map fun i => (step m)^[i] s)
            ((step m)^[k] s) =
            match pathIndex ((step m)^[k] s) ((List.range k).map fun i => (step m)^[i] s) with
            | some start =>
              (((List.range k).map fun i => (step m)^[i] s),
                some (((List.range k).map fun i => (step m)^[i] s).drop start))
            | none =>
              stepLoop m fuel (((List.range k).map fun i => (step m)^[i] s) ++ [(step m)^[k] s])
                (step m ((step m)^[k] s)) from rfl]
        rw [pathIndex_eq_none.mpr hnotmem]
      rw [hre]
      have hpath' : ((List.range k).map fun i => (step m)^[i] s) ++ [(step m)^[k] s] =
          (List.range (k + 1)).map (fun i => (step m)^[i] s) := by
        rw [List.range_succ, List.map_append]
        rfl
      have hcur : step m ((step m)^[k] s) = (step m)^[k + 1] s :=
        (Function.iterate_succ_apply' _ _ _).symm
      rw [hpath', hcur]
      exact ih (k + 1) (by omega) (by omega)

lemma stepLoop_run {m : Nat} (hm : 0 < m) {s : State} (hs : inDomain m s) {fuel : Nat}
    (hf : leastPeriod m s + 1 ≤ fuel) :
    stepLoop m fuel [] s = (orbitList m s, some (orbitList m s)) := by
  have h := stepLoop_go hm hs fuel 0 (by omega) (by omega)
  simpa using h

/-! ### The scan over starting pairs -/

lemma mem_keys {m : Nat} {x : State} : x ∈ keys m ↔ inDomain m x := by
  obtain ⟨a, b⟩ := x
  simp only [keys, List.mem_flatMap, List.mem_map, List.mem_range]
  constructor
  · rintro ⟨a', ha', b', hb', heq⟩
    cases heq
    exact ⟨ha', hb'⟩
  · rintro ⟨ha, hb⟩
    exact ⟨a, ha, b, hb, rfl⟩

lemma mem_append_cons_iff {α : Type} (p k : α) (prev ks : List α) :
    p ∈ prev ++ [k] ++ ks ↔ p ∈ prev ++ k :: ks := by
  simp only [List.mem_append, List.mem_cons, List.mem_singleton]
  tauto

lemma contributors_mem {m : Nat} :
    ∀ ks prev, ∀ c ∈ contributors m ks prev, c ∈ ks ∧ ∀ p ∈ prev, c ∉ orbitList m p := by
  intro ks
  induction ks with
  | nil =>
    intro prev c hc
    simp [contributors] at hc
  | cons k ks ih =>
    intro prev c hc
    by_cases hcond : (prev.any fun p => decide (k ∈ orbitList m p)) = true
    · rw [contributors, if_pos hcond] at hc
      obtain ⟨hcks, hcprev⟩ := ih (prev ++ [k]) c hc
      exact ⟨List.mem_cons_of_mem _ hcks, fun p hp => hcprev p (List.mem_append_left _ hp)⟩
    · rw [contributors, if_neg hcond] at hc
      rcases List.mem_cons.mp hc with rfl | hc'
      · refine ⟨List.mem_cons_self _ _, fun p hp hmem => ?_⟩
        exact hcond (List.any_eq_true.mpr ⟨p, hp, decide_eq_true hmem⟩)
      · obtain ⟨hcks, hcprev⟩ := ih (prev ++ [k]) c hc'
        exact ⟨List.mem_cons_of_mem _ hcks, fun p hp => hcprev p (List.mem_append_left _ hp)⟩

lemma contributors_pairwise {m : Nat} :
    ∀ ks prev, List.Pairwise (fun a b => b ∉ orbitList m a) (contributors m ks prev) := by
  intro ks
  induction ks with
  | nil =>
    intro prev
    simp [contributors]
  | cons k ks ih =>
    intro prev
    by_cases hcond : (prev.any fun p => decide (k ∈ orbitList m p)) = true
    · rw [contributors, if_pos hcond]
      exact ih (prev ++ [k])
    · rw [contributors, if_neg hcond]
      refine List.Pairwise.cons ?_ (ih (prev ++ [k]))
      intro b hb
      exact (contributors_mem ks (prev ++ [k]) b hb).2 k
        (List.mem_append_right _ (List.mem_singleton.mpr rfl))

lemma contributors_cover {m : Nat} (hm : 0 < m) :
    ∀ ks prev, (∀ k ∈ ks, inDomain m k) → (∀ p ∈ prev, inDomain m p) →
      ∀ k0 ∈ ks, (∃ p ∈ prev, k0 ∈ orbitList m p) ∨
        ∃ c ∈ contributors m ks prev, k0 ∈ orbitList m c := by
  intro ks
  induction ks with
  | nil =>
    intro prev _ _ k0 h
    simp at h
  | cons k ks ih =>
    intro prev hks hprev k0 hk0
    have hkdom : inDomain m k := hks k (List.mem_cons_self _ _)
    have hks' : ∀ x ∈ ks, inDomain m x := fun x hx => hks x (List.mem_cons_of_mem _ hx)
    have hprev' : ∀ p ∈ prev ++ [k], inDomain m p := by
      intro p hp
      rcases List.mem_append.mp hp with hp' | hp'
      · exact hprev p hp'
      · exact (List.mem_singleton.mp hp') ▸ hkdom
    by_cases hcond : (prev.any fun p => decide (k ∈ orbitList m p)) = true
    · obtain ⟨p0, hp0, hkp0'⟩ := List.any_eq_true.mp hcond
      have hkp0 : k ∈ orbitList m p0 := of_decide_eq_true hkp0'
      rw [contributors, if_pos hcond]
      rcases List.mem_cons.mp hk0 with rfl | hk0'
      · exact Or.inl ⟨p0, hp0, hkp0⟩
      · rcases ih (prev ++ [k]) hks' hprev' k0 hk0' with ⟨p, hp, hor⟩ | hc
        · rcases List.mem_append.mp hp with hp' | hp'
          · exact Or.inl ⟨p, hp', hor⟩
          · have hpk : p = k := List.mem_singleton.mp hp'
            subst hpk
            exact Or.inl ⟨p0, hp0, orbit_trans hm (hprev p0 hp0) hor hkp0⟩
        · exact Or.inr hc
    · rw [contributors, if_neg hcond]
      rcases List.mem_cons.mp hk0 with rfl | hk0'
      · exact Or.inr ⟨k0, List.mem_cons_self _ _, self_mem_orbitList hm hkdom⟩
      · rcases ih (prev ++ [k]) hks' hprev' k0 hk0' with ⟨p, hp, hor⟩ | ⟨c, hc, hor⟩
        · rcases List.mem_append.mp hp with hp' | hp'
          · exact Or.inl ⟨p, hp', hor⟩
          · have hpk : p = k := List.mem_singleton.mp hp'
            subst hpk
            exact Or.inr ⟨p, List.mem_cons_self _ _, hor⟩
        · exact Or.inr ⟨c, List.mem_cons_of_mem _ hc, hor⟩

lemma orbit_disjoint {m : Nat} (hm : 0 < m) {a b : State} (ha : inDomain m a)
    (hb : inDomain m b) (hab : b ∉ orbitList m a) :
    List.Disjoint (orbitList m a) (orbitList m b) := by
  intro t hta htb
  have hbt : b ∈ orbitList m t := orbit_symm hm hb htb
  exact hab (orbit_trans hm ha hbt hta)

lemma scan_master {m : Nat} (hm : 0 < m) :
    ∀ (ks prev : List State) (st : EnumState),
      (∀ k ∈ ks, inDomain m k) → (∀ p ∈ prev, inDomain m p) →
      (∀ x, x ∈ st.visited ↔ ∃ p ∈ prev, x ∈ orbitList m p) →
      (∀ x, x ∈ (ks.foldl (processStart m) st).visited ↔
          ∃ p ∈ prev ++ ks, x ∈ orbitList m p) ∧
        (ks.foldl (processStart m) st).rawCycles =
          st.rawCycles ++
            (contributors m ks prev).map (fun c => canonicalCycle (orbitList m c)) := by
  intro ks
  induction ks with
  | nil =>
    intro prev st hks hprev hinv
    refine ⟨fun x => ?_, ?_⟩
    · rw [List.foldl_nil, List.append_nil]
      exact hinv x
    · rw [List.foldl_nil]
      simp [contributors]
  | cons k ks ih =>
    intro prev st hks hprev hinv
    have hkdom : inDomain m k := hks k (List.mem_cons_self _ _)
    have hks' : ∀ x ∈ ks, inDomain m x := fun x hx => hks x (List.mem_cons_of_mem _ hx)
    have hprev' : ∀ p ∈ prev ++ [k], inDomain m p := by
      intro p hp
      rcases List.mem_append.mp hp with hp' | hp'
      · exact hprev p hp'
      · exact (List.mem_singleton.mp hp') ▸ hkdom
    simp only [List.foldl_cons]
    by_cases hvis : k ∈ st.visited
    · have hcond : (prev.any fun p => decide (k ∈ orbitList m p)) = true := by
        obtain ⟨p, hp, hkp⟩ := (hinv k).mp hvis
        exact List.any_eq_true.mpr ⟨p, hp, decide_eq_true hkp⟩
      have hps : processStart m st k = st := by
        rw [processStart, if_pos hvis]
      rw [hps]
      have hinv' : ∀ x, x ∈ st.visited ↔ ∃ p ∈ prev ++ [k], x ∈ orbitList m p := by
        intro x
        rw [hinv x]
        constructor
        · rintro ⟨p, hp, hx⟩
          exact ⟨p, List.mem_append_left _ hp, hx⟩
        · rintro ⟨p, hp, hx⟩
          rcases List.mem_append.mp hp with hp' | hp'
          · exact ⟨p, hp', hx⟩
          · have hpk : p = k := List.mem_singleton.mp hp'
            subst hpk
            obtain ⟨p0, hp0, hkp0⟩ := (hinv p).mp hvis
            exact ⟨p0, hp0, orbit_trans hm (hprev p0 hp0) hx hkp0⟩
      obtain ⟨hv, hr⟩ := ih (prev ++ [k]) st hks' hprev' hinv'
      rw [contributors, if_pos hcond]
      refine ⟨fun x => ?_, hr⟩
      rw [hv x]
      constructor
      · rintro ⟨p, hp, hx⟩
        exact ⟨p, (mem_append_cons_iff p k prev ks).mp hp, hx⟩
      · rintro ⟨p, hp, hx⟩
        exact ⟨p, (mem_append_cons_iff p k prev ks).mpr hp, hx⟩
    · have hcond : (prev.any fun p => decide (k ∈ orbitList m p)) = false := by
        rw [List.any_eq_false]
        intro p hp hdec
        exact hvis ((hinv k).mpr ⟨p, hp, of_decide_eq_true hdec⟩)
      have hcond' : ¬ ((prev.any fun p => decide (k ∈ orbitList m p)) = true) := by
        simp [hcond]
      have hLle : leastPeriod m k + 1 ≤ m * m * 2 + 1000 := by
        have := (leastPeriod_spec hm hkdom).2.1
        omega
      have hrun := stepLoop_run hm hkdom hLle
      have hps : processStart m st k =
          ⟨st.visited ++ orbitList m k,
            st.rawCycles ++ [canonicalCycle (orbitList m k)]⟩ := by
        rw [processStart, if_neg hvis]
        simp only [hrun]
        have hemp : (orbitList m k).isEmpty = false :=
          List.isEmpty_eq_false.mpr (orbitList_ne_nil hm hkdom)
        simp only [hemp, Bool.false_eq_true, if_false]
      rw [hps]
      have hinv' : ∀ x, x ∈ st.visited ++ orbitList m k ↔
          ∃ p ∈ prev ++ [k], x ∈ orbitList m p := by
        intro x
        rw [List.mem_append, hinv x]
        constructor
        · rintro (⟨p, hp, hx⟩ | hx)
          · exact ⟨p, List.mem_append_left _ hp, hx⟩
          · exact ⟨k, List.mem_append_right _ (List.mem_singleton.mpr rfl), hx⟩
        · rintro ⟨p, hp, hx⟩
          rcases List.mem_append.mp hp with hp' | hp'
          · exact Or.inl ⟨p, hp', hx⟩
          · have hpk : p = k := List.mem_singleton.mp hp'
            subst hpk
            exact Or.inr hx
      obtain ⟨hv, hr⟩ := ih (prev ++ [k])
        ⟨st.visited ++ orbitList m k, st.rawCycles ++ [canonicalCycle (orbitList m k)]⟩
        hks' hprev' hinv'
      rw [contributors, if_neg hcond']
      constructor
      · intro x
        rw [hv x]
        constructor
        · rintro ⟨p, hp, hx⟩
          exact ⟨p, (mem_append_cons_iff p k prev ks).mp hp, hx⟩
        · rintro ⟨p, hp, hx⟩
          exact ⟨p, (mem_append_cons_iff p k prev ks).mpr hp, hx⟩
      · rw [hr]
        simp [List.append_assoc]

lemma tracePaths_eq {m : Nat} (hm : 0 < m) :
    ∀ (ks prev visited : List State),
      (∀ k ∈ ks, inDomain m k) → (∀ p ∈ prev, inDomain m p) →
      (∀ x, x ∈ visited ↔ ∃ p ∈ prev, x ∈ orbitList m p) →
      tracePaths m ks visited = (contributors m ks prev).map (orbitList m) := by
  intro ks
  induction ks with
  | nil =>
    intro prev visited _ _ _
    simp [tracePaths, contributors]
  | cons k ks ih =>
    intro prev visited hks hprev hinv
    have hkdom : inDomain m k := hks k (List.mem_cons_self _ _)
    have hks' : ∀ x ∈ ks, inDomain m x := fun x hx => hks x (List.mem_cons_of_mem _ hx)
    have hprev' : ∀ p ∈ prev ++ [k], inDomain m p := by
      intro p hp
      rcases List.mem_append.mp hp with hp' | hp'
      · exact hprev p hp'
      · exact (List.mem_singleton.mp hp') ▸ hkdom
    by_cases hvis : k ∈ visited
    · have hcond : (prev.any fun p => decide (k ∈ orbitList m p)) = true := by
        obtain ⟨p, hp, hkp⟩ := (hinv k).mp hvis
        exact List.any_eq_true.mpr ⟨p, hp, decide_eq_true hkp⟩
      rw [tracePaths, if_pos hvis, contributors, if_pos hcond]
      have hinv' : ∀ x, x ∈ visited ↔ ∃ p ∈ prev ++ [k], x ∈ orbitList m p := by
        intro x
        rw [hinv x]
        constructor
        · rintro ⟨p, hp, hx⟩
          exact ⟨p, List.mem_append_left _ hp, hx⟩
        · rintro ⟨p, hp, hx⟩
          rcases List.mem_append.mp hp with hp' | hp'
          · exact ⟨p, hp', hx⟩
          · have hpk : p = k := List.mem_singleton.mp hp'
            subst hpk
            obtain ⟨p0, hp0, hkp0⟩ := (hinv p).mp hvis
            exact ⟨p0, hp0, orbit_trans hm (hprev p0 hp0) hx hkp0⟩
      exact ih (prev ++ [k]) visited hks' hprev' hinv'
    · have hcond : (prev.any fun p => decide (k ∈ orbitList m p)) = false := by
        rw [List.any_eq_false]
        intro p hp hdec
        exact hvis ((hinv k).mpr ⟨p, hp, of_decide_eq_true hdec⟩)
      have hcond' : ¬ ((prev.any fun p => decide (k ∈ orbitList m p)) = true) := by
        simp [hcond]
      have hLle : leastPeriod m k + 1 ≤ m * m * 2 + 1000 := by
        have := (leastPeriod_spec hm hkdom).2.1
        omega
      have hrun := stepLoop_run hm hkdom hLle
      rw [tracePaths, if_neg hvis, contributors, if_neg hcond', hrun]
      have hinv' : ∀ x, x ∈ visited ++ orbitList m k ↔
          ∃ p ∈ prev ++ [k], x ∈ orbitList m p := by
        intro x
        rw [List.mem_append, hinv x]
        constructor
        · rintro (⟨p, hp, hx⟩ | hx)
          · exact ⟨p, List.mem_append_left _ hp, hx⟩
          · exact ⟨k, List.mem_append_right _ (List.mem_singleton.mpr rfl), hx⟩
        · rintro ⟨p, hp, hx⟩
          rcases List.mem_append.mp hp with hp' | hp'
          · exact Or.inl ⟨p, hp', hx⟩
          · have hpk : p = k := List.mem_singleton.mp hp'
            subst hpk
            exact Or.inr hx
      rw [ih (prev ++ [k]) (visited ++ (orbitList m k, some (orbitList m k)).1)
        hks' hprev' hinv', List.map_cons]

lemma scanRaw_rawCycles {m : Nat} (hm : 0 < m) :
    (scanRaw m).rawCycles = specCycles m := by
  have h := scan_master hm (keys m) [] ⟨[], []⟩ (fun k hk => mem_keys.mp hk)
    (by simp) (by simp)
  simpa [scanRaw, specCycles] using h.2

/-! ### Deduplication is the identity on the already-disjoint raw cycles -/

lemma dedup_foldl :
    ∀ (L : List (List State)) (st : DedupState), L.Nodup → (∀ l ∈ L, l ∉ st.seen) →
      L.foldl dedupStep st =
        ⟨st.seen ++ L, st.sequences ++ L.map (fun c => c.map Prod.fst),
          st.cyclesPairs ++ L⟩ := by
  intro L
  induction L with
  | nil =>
    intro st _ _
    simp
  | cons c L ih =>
    intro st hnd hnotin
    have hc : c ∉ st.seen := hnotin c (List.mem_cons_self _ _)
    have hstep : dedupStep st c =
        ⟨st.seen ++ [c], st.sequences ++ [c.map Prod.fst], st.cyclesPairs ++ [c]⟩ := by
      rw [dedupStep, if_neg hc]
    rw [List.foldl_cons, hstep,
      ih ⟨st.seen ++ [c], st.sequences ++ [c.map Prod.fst], st.cyclesPairs ++ [c]⟩
        hnd.of_cons ?_]
    · simp only [DedupState.mk.injEq]
      refine ⟨?_, ?_, ?_⟩ <;> simp [List.append_assoc]
    · intro l hl hmem
      rcases List.mem_append.mp hmem with h' | h'
      · exact hnotin l (List.mem_cons_of_mem _ hl) h'
      · have : l = c := List.mem_singleton.mp h'
        subst this
        exact (List.nodup_cons.mp hnd).1 hl

/-! ### Structure of the retained cycles -/

lemma contributors_orbits_disjoint {m : Nat} (hm : 0 < m) :
    List.Pairwise (fun a b => List.Disjoint (orbitList m a) (orbitList m b))
      (contributors m (keys m) []) := by
  refine (contributors_pairwise (keys m) []).imp_of_mem ?_
  intro a b ha hb hr
  have hda : inDomain m a := mem_keys.mp (contributors_mem (keys m) [] a ha).1
  have hdb : inDomain m b := mem_keys.mp (contributors_mem (keys m) [] b hb).1
  exact orbit_disjoint hm hda hdb hr

lemma specCycles_disjoint {m : Nat} (hm : 0 < m) :
    List.Pairwise List.Disjoint (specCycles m) := by
  rw [specCycles, List.pairwise_map]
  refine (contributors_orbits_disjoint hm).imp ?_
  intro a b hd t hta htb
  exact hd (mem_canonicalCycle.mp hta) (mem_canonicalCycle.mp htb)

lemma specCycles_forall {m : Nat} (hm : 0 < m) :
    ∀ c ∈ specCycles m, c ≠ [] ∧ c.Nodup ∧ ∀ x ∈ c, inDomain m x := by
  intro c hc
  rw [specCycles, List.mem_map] at hc
  obtain ⟨s, hs, rfl⟩ := hc
  have hds : inDomain m s := mem_keys.mp (contributors_mem (keys m) [] s hs).1
  refine ⟨canonicalCycle_ne_nil (orbitList_ne_nil hm hds),
    canonicalCycle_nodup (orbitList_nodup hm hds), ?_⟩
  intro x hx
  exact orbitList_subset hm hds x (mem_canonicalCycle.mp hx)

lemma specCycles_cover {m : Nat} (hm : 0 < m) {x : State} (hx : inDomain m x) :
    ∃ c ∈ specCycles m, x ∈ c := by
  have hxk : x ∈ keys m := mem_keys.mpr hx
  rcases contributors_cover hm (keys m) [] (fun k hk => mem_keys.mp hk) (by simp) x hxk with
    ⟨p, hp, -⟩ | ⟨c, hc, hor⟩
  · simp at hp
  · exact ⟨canonicalCycle (orbitList m c), List.mem_map_of_mem _ hc,
      mem_canonicalCycle.mpr hor⟩

lemma specCycles_nodup {m : Nat} (hm : 0 < m) : (specCycles m).Nodup := by
  refine (specCycles_disjoint hm).imp_of_mem ?_
  intro a b ha _ hdisj heq
  subst heq
  obtain ⟨hne, -, -⟩ := specCycles_forall hm a ha
  obtain ⟨t, ht⟩ := List.exists_mem_of_ne_nil a hne
  exact hdisj ht ht

/-- The output of `computeModCycles` for a positive modulus: the canonical
cycles in first-discovery order, with `sequences` their first-component
projection. -/
lemma computeModCyclesNat_eq {m : Nat} (hm : 0 < m) :
    computeModCyclesNat m =
      ((specCycles m).map (fun c => c.map Prod.fst), specCycles m) := by
  rw [computeModCyclesNat, scanRaw_rawCycles hm,
    dedup_foldl (specCycles m) ⟨[], [], []⟩ (specCycles_nodup hm) (by simp)]
  simp

/-! ### Counting membership across pairwise-disjoint cycles -/

lemma countP_mem_le_one {x : State} :
    ∀ {L : List (List State)}, List.Pairwise List.Disjoint L →
      L.countP (fun c => decide (x ∈ c)) ≤ 1 := by
  intro L
  induction L with
  | nil => intro _; simp
  | cons a L ih =>
    intro hpw
    obtain ⟨hhead, htail⟩ := List.pairwise_cons.mp hpw
    rw [List.countP_cons]
    by_cases hx : x ∈ a
    · have hzero : L.countP (fun c => decide (x ∈ c)) = 0 := by
        rw [List.countP_eq_zero]
        intro b hb hdec
        exact hhead b hb hx (of_decide_eq_true hdec)
      simp [hzero, hx]
    · simpa [hx] using ih htail

lemma specCycles_length_sum {m : Nat} (hm : 0 < m) :
    ((specCycles m).map List.length).sum = m * m := by
  have hnd : (specCycles m).flatten.Nodup :=
    List.nodup_flatten.mpr
      ⟨fun l hl => (specCycles_forall hm l hl).2.1, specCycles_disjoint hm⟩
  have hfin : (specCycles m).flatten.toFinset = Finset.range m ×ˢ Finset.range m := by
    ext y
    simp only [List.mem_toFinset, List.mem_flatten, Finset.mem_product, Finset.mem_range]
    constructor
    · rintro ⟨c, hc, hyc⟩
      exact (specCycles_forall hm c hc).2.2 y hyc
    · intro hy
      exact specCycles_cover hm ⟨hy.1, hy.2⟩
  have hcard := List.toFinset_card_of_nodup hnd
  rw [hfin] at hcard
  have hrange : (Finset.range m ×ˢ Finset.range m).card = m * m := by simp
  rw [← List.length_flatten, ← hcard, hrange]

/-! ### The claims -/

/-- C1: for every `m > 0`, the retained cycles returned by `computeModCycles`
partition the state space `[0,m)²` — each domain pair occurs in exactly one
retained cycle, every element of every cycle lies in the domain, and the
cycle lengths sum to exactly `m²`. -/
theorem claim1_partition (m : Nat) (hm : 0 < m) (x : State) (hx : inDomain m x) :
    ((computeModCyclesNat m).2.countP fun c => decide (x ∈ c)) = 1 ∧
      (∀ c ∈ (computeModCyclesNat m).2, ∀ y ∈ c, inDomain m y) ∧
      ((computeModCyclesNat m).2.map List.length).sum = m * m := by
  have h2 : (computeModCyclesNat m).2 = specCycles m := by rw [computeModCyclesNat_eq hm]
  rw [h2]
  refine ⟨?_, ?_, specCycles_length_sum hm⟩
  · have hle : ((specCycles m).countP fun c => decide (x ∈ c)) ≤ 1 :=
      countP_mem_le_one (specCycles_disjoint hm)
    have hge : 0 < ((specCycles m).countP fun c => decide (x ∈ c)) := by
      rw [List.countP_pos_iff]
      obtain ⟨c, hc, hxc⟩ := specCycles_cover hm hx
      exact ⟨c, hc, decide_eq_true hxc⟩
    omega
  · intro c hc y hy
    exact (specCycles_forall hm c hc).2.2 y hy

/-- Witness for C1 at `m = 2`, `x = (1, 0)`. -/
theorem claim1_partition_witness :
    (0 < 2 ∧ inDomain 2 ((1, 0) : State)) ∧
      (((computeModCyclesNat 2).2.countP fun c => decide (((1, 0) : State) ∈ c)) = 1 ∧
        (∀ c ∈ (computeModCyclesNat 2).2, ∀ y ∈ c, inDomain 2 y) ∧
        ((computeModCyclesNat 2).2.map List.length).sum = 2 * 2) :=
  ⟨⟨by decide, by decide⟩, claim1_partition 2 (by decide) (1, 0) (by decide)⟩

/-- C2: for every `m > 0`, the order of the returned cycles is deterministic
and equals the order in which distinct canonical cycles are first discovered
under the row-major scan of starting pairs (`specCycles`, modelled from the
spec), with only the first-seen representative retained; the `sequences`
component is parallel to it. -/
theorem claim2_discovery_order (m : Nat) (hm : 0 < m) :
    (computeModCyclesNat m).2 = specCycles m ∧
      (computeModCyclesNat m).1 = (specCycles m).map (fun c => c.map Prod.fst) := by
  rw [computeModCyclesNat_eq hm]
  exact ⟨rfl, rfl⟩

/-- Witness for C2 at `m = 2`. -/
theorem claim2_discovery_order_witness :
    0 < 2 ∧
      ((computeModCyclesNat 2).2 = specCycles 2 ∧
        (computeModCyclesNat 2).1 = (specCycles 2).map (fun c => c.map Prod.fst)) :=
  ⟨by decide, claim2_discovery_order 2 (by decide)⟩

/-- C3: during one enumeration run with `m > 0`, no state appears in the
traversal path of more than one starting point, and no path explores a state
twice: the global visited set prevents any re-traversal. -/
theorem claim3_no_retraversal (m : Nat) (hm : 0 < m) (x : State) :
    ((tracePaths m (keys m) []).countP fun p => decide (x ∈ p)) ≤ 1 ∧
      ∀ p ∈ tracePaths m (keys m) [], p.Nodup := by
  have htr : tracePaths m (keys m) [] = (contributors m (keys m) []).map (orbitList m) :=
    tracePaths_eq hm (keys m) [] [] (fun k hk => mem_keys.mp hk) (by simp) (by simp)
  rw [htr]
  constructor
  · exact countP_mem_le_one (List.pairwise_map.mpr (contributors_orbits_disjoint hm))
  · intro p hp
    rw [List.mem_map] at hp
    obtain ⟨s, hs, rfl⟩ := hp
    exact orbitList_nodup hm (mem_keys.mp (contributors_mem (keys m) [] s hs).1)

/-- Witness for C3 at `m = 2`, `x = (0, 1)`. -/
theorem claim3_no_retraversal_witness :
    0 < 2 ∧
      (((tracePaths 2 (keys 2) []).countP fun p => decide (((0, 1) : State) ∈ p)) ≤ 1 ∧
        ∀ p ∈ tracePaths 2 (keys 2) [], p.Nodup) :=
  ⟨by decide, claim3_no_retraversal 2 (by decide) (0, 1)⟩

/-- C5: a non-positive modulus is rejected by the argument validation before
any computation with an invalid-argument error, and the core enumeration
emits no sequences and no cycles. -/
theorem claim5_invalid_modulus (base : Int) (h : base ≤ 0) :
    mainCheck base = Except.error "error: modulus must be a positive integer" ∧
      computeModCycles base = ([], []) := by
  rw [mainCheck, if_pos h, computeModCycles, if_pos h]
  exact ⟨rfl, rfl⟩

/-- Witness for C5 at the two tested inputs `base = -5` and `base = 0`. -/
theorem claim5_invalid_modulus_witness :
    ((-5 : Int) ≤ 0 ∧
        (mainCheck (-5) = Except.error "error: modulus must be a positive integer" ∧
          computeModCycles (-5) = ([], []))) ∧
      ((0 : Int) ≤ 0 ∧
        (mainCheck 0 = Except.error "error: modulus must be a positive integer" ∧
          computeModCycles 0 = ([], []))) :=
  ⟨⟨by decide, claim5_invalid_modulus (-5) (by decide)⟩,
    ⟨by decide, claim5_invalid_modulus 0 (by decide)⟩⟩

/-- C6: for every `m > 0` and every starting state of the domain, the
traversal loop detects a cycle within at most `m² + 1` iterations, so the
hard cap of `m²·2 + 1000` iterations is never reached: running the loop with
either bound gives the same detected cycle. -/
theorem claim6_loop_terminates (m : Nat) (hm : 0 < m) (s : State) (hs : inDomain m s) :
    (stepLoop m (m * m + 1) [] s).2 = some (orbitList m s) ∧
      stepLoop m (m * m * 2 + 1000) [] s = stepLoop m (m * m + 1) [] s := by
  have hLle : leastPeriod m s + 1 ≤ m * m + 1 := by
    have := (leastPeriod_spec hm hs).2.1
    omega
  have h1 := stepLoop_run hm hs hLle
  have h2 := stepLoop_run hm hs (show leastPeriod m s + 1 ≤ m * m * 2 + 1000 by omega)
  rw [h1, h2]
  exact ⟨rfl, rfl⟩

/-- Witness for C6 at `m = 1`, `s = (0, 0)`. -/
theorem claim6_loop_terminates_witness :
    (0 < 1 ∧ inDomain 1 ((0, 0) : State)) ∧
      ((stepLoop 1 (1 * 1 + 1) [] (0, 0)).2 = some (orbitList 1 (0, 0)) ∧
        stepLoop 1 (1 * 1 * 2 + 1000) [] (0, 0) = stepLoop 1 (1 * 1 + 1) [] (0, 0)) :=
  ⟨⟨by decide, by decide⟩, claim6_loop_terminates 1 (by decide) (0, 0) (by decide)⟩

set_option maxRecDepth 100000 in
/-- C7 (as stated, refuted): at `m = 8` the enumeration does *not* return 6
cycles with length multiset `{1,2,3,6,12,12}` totalling 64 elements — those
lengths sum to 36, not 64, and the code actually returns 8 cycles. -/
theorem claim7_m8_counterexample :
    ¬((computeModCyclesNat 8).2.length = 6 ∧
      ((computeModCyclesNat 8).2.map List.length).Perm [1, 2, 3, 6, 12, 12] ∧
      ((computeModCyclesNat 8).2.map List.length).sum = 64) := by
  decide

set_option maxRecDepth 100000 in
/-- C7 (amended): at `m = 8` the enumeration returns exactly 8 distinct
canonical cycles, with lengths `[1, 12, 6, 12, 3, 6, 12, 12]` in discovery
order, and the total number of elements across the cycles is 64. -/
theorem claim7_m8_reference :
    (computeModCyclesNat 8).2.length = 8 ∧
      (computeModCyclesNat 8).2.map List.length = [1, 12, 6, 12, 3, 6, 12, 12] ∧
      ((computeModCyclesNat 8).2.map List.length).sum = 64 := by
  decide

/-- C8: for every `m > 0`, the returned `sequences` are the exact 1:1
projection of the returned cycles onto first components: the lists are
parallel and pointwise `sequences[i][j] = cycles_pairs[i][j].fst`. -/
theorem claim8_sequence_projection (m : Nat) (hm : 0 < m) :
    (computeModCyclesNat m).1.length = (computeModCyclesNat m).2.length ∧
      (computeModCyclesNat m).1 = (computeModCyclesNat m).2.map (List.map Prod.fst) := by
  rw [computeModCyclesNat_eq hm]
  exact ⟨by simp, rfl⟩

/-- Witness for C8 at `m = 2`. -/
theorem claim8_sequence_projection_witness :
    0 < 2 ∧
      ((computeModCyclesNat 2).1.length = (computeModCyclesNat 2).2.length ∧
        (computeModCyclesNat 2).1 = (computeModCyclesNat 2).2.map (List.map Prod.fst)) :=
  ⟨by decide, claim8_sequence_projection 2 (by decide)⟩

/-- C10: for every `m > 0`, every retained cycle is non-empty and all of its
states have both components in `[0, m)`. -/
theorem claim10_cycles_wellformed (m : Nat) (hm : 0 < m) (c : List State)
    (hc : c ∈ (computeModCyclesNat m).2) :
    c ≠ [] ∧ ∀ y ∈ c, inDomain m y := by
  have h2 : (computeModCyclesNat m).2 = specCycles m := by rw [computeModCyclesNat_eq hm]
  rw [h2] at hc
  obtain ⟨h1, -, h3⟩ := specCycles_forall hm c hc
  exact ⟨h1, h3⟩

/-- Witness for C10 at `m = 1`, `c = [(0, 0)]`. -/
theorem claim10_cycles_wellformed_witness :
    (0 < 1 ∧ ([((0 : Nat), (0 : Nat))] : List State) ∈ (computeModCyclesNat 1).2) ∧
      (([((0 : Nat), (0 : Nat))] : List State) ≠ [] ∧
        ∀ y ∈ ([((0 : Nat), (0 : Nat))] : List State), inDomain 1 y) :=
  ⟨⟨by decide, by decide⟩, claim10_cycles_wellformed 1 (by decide) _ (by decide)⟩

end FibMod
